import Mathlib

/-!
Verification of the EveBurstErrorTL script codec pipeline.

Shallow embedding of:
* the text-record scanner `extractTextBlocks` / `validateTextStructure`
  (src/src/utils/extractTextBlocks.ts),
* the injection engine `injectFile` with its helper functions
  `processEnText` and `replaceBuffer` (src/unnamed/part_013).

Buffers are lists of natural numbers (each byte in 0..255); JS `buffer[i]`
reads past the end of a Buffer yield `undefined`, which the source coerces
with `|| 0`, so out-of-range reads are modelled with `List.getD _ _ 0`.
Uncaught JavaScript exceptions (TypeError on a property read of
`undefined`, RangeError from Buffer read/write range checks) are modelled
with `Except JsErr`.
-/

/-- A byte buffer: list of naturals, each intended to be < 256. -/
abbrev Bytes := List Nat

/-- Uncaught JavaScript exception kinds relevant to the injector. -/
inductive JsErr where
  /-- TypeError: cannot read properties of undefined. -/
  | typeError : JsErr
  /-- RangeError from Buffer bounds / value range checks. -/
  | rangeError : JsErr
deriving DecidableEq, Repr

instance exceptDecEq {ε α : Type} [DecidableEq ε] [DecidableEq α] :
    DecidableEq (Except ε α) := fun x y =>
  match x, y with
  | .ok a, .ok b =>
    if h : a = b then isTrue (by rw [h]) else isFalse (fun hc => h (Except.ok.inj hc))
  | .error e, .error f =>
    if h : e = f then isTrue (by rw [h]) else isFalse (fun hc => h (Except.error.inj hc))
  | .ok _, .error _ => isFalse (fun hc => Except.noConfusion hc)
  | .error _, .ok _ => isFalse (fun hc => Except.noConfusion hc)

/-! ## Text-record scanner (src/src/utils/extractTextBlocks.ts) -/

/-- CP932 lead byte test: `0x81..0x9F` or `0xE0..0xFC`.  The source masks
with `& 0xFF`, modelled by `% 256`. -/
def isLeadByte (b : Nat) : Bool :=
  (0x81 ≤ b % 256 && b % 256 ≤ 0x9F) || (0xE0 ≤ b % 256 && b % 256 ≤ 0xFC)

/-- The CP932 walk of check 4 of `validateTextStructure`: starting at the
first byte, a lead byte consumes two bytes, any other byte consumes one;
returns the total number of bytes consumed (which is `length + 1` exactly
when the last byte is an unmatched lead byte). -/
def cp932Consume : Bytes → Nat
  | [] => 0
  | [b] => if isLeadByte b then 2 else 1
  | b :: c :: rest =>
    if isLeadByte b then 2 + cp932Consume rest else 1 + cp932Consume (c :: rest)

/-- The candidate text slice: `lineLen` bytes starting at `startPos + 2`. -/
def textSlice (buffer : Bytes) (startPos : Nat) : Bytes :=
  (buffer.drop (startPos + 2)).take (buffer.getD (startPos + 1) 0)

/-- `validateTextStructure` from src/src/utils/extractTextBlocks.ts: the
five-part validation heuristic applied at the position of a `0xFD` byte.
The source names `lineLen := buffer[startPos + 1] || 0` (here written out
as `buffer.getD (startPos + 1) 0` at every use) and
`terminatorPos := startPos + 2 + lineLen`. -/
def validateTextStructure (buffer : Bytes) (startPos : Nat) : Bool :=
  -- check 1: the length byte is nonzero
  if buffer.getD (startPos + 1) 0 = 0 then false
  -- check 2: the byte after the text exists and is 0x00
  else if startPos + 2 + buffer.getD (startPos + 1) 0 ≥ buffer.length then false
  else if buffer.getD (startPos + 2 + buffer.getD (startPos + 1) 0) 0 ≠ 0 then false
  -- check 3: no 0x00 among the lineLen text bytes
  else if (textSlice buffer startPos).contains 0 then false
  -- check 4: the CP932 walk must not consume one byte past the end
  else if cp932Consume (textSlice buffer startPos) = buffer.getD (startPos + 1) 0 + 1 then false
  -- check 5: the specific payload 12 FB 01 is not a text record
  else if buffer.getD (startPos + 1) 0 = 3 && buffer.getD (startPos + 2) 0 = 0x12 &&
      buffer.getD (startPos + 3) 0 = 0xFB && buffer.getD (startPos + 4) 0 = 0x01 then false
  else true

/-- The five validation checks of the specification, stated declaratively
(used to compare `validateTextStructure` against the claim's wording):
writing `len` for the length byte at `p + 1`, they are `len > 0`; the byte
at `p + 2 + len` exists and is `0x00`; none of the `len` text bytes is
`0x00`; the CP932 walk does not consume `len + 1` bytes; and the payload
is not exactly `12 FB 01` with `len = 3`. -/
def FiveChecks (buffer : Bytes) (p : Nat) : Prop :=
  0 < buffer.getD (p + 1) 0 ∧
  (p + 2 + buffer.getD (p + 1) 0 < buffer.length ∧
    buffer.getD (p + 2 + buffer.getD (p + 1) 0) 0 = 0) ∧
  (∀ k, k < buffer.getD (p + 1) 0 → buffer.getD (p + 2 + k) 0 ≠ 0) ∧
  cp932Consume (textSlice buffer p) ≠ buffer.getD (p + 1) 0 + 1 ∧
  ¬(buffer.getD (p + 1) 0 = 3 ∧ textSlice buffer p = [0x12, 0xFB, 0x01])

instance (buffer : Bytes) (p : Nat) : Decidable (FiveChecks buffer p) := by
  unfold FiveChecks; infer_instance

/-- An extracted text record: the `0xFD` position, the length byte and the
text bytes.  (The source also stores the iconv-decoded string; iconv-lite
decoding is total and the record's decoded text plays no role in the
byte-level claims, so it is omitted.) -/
structure TextBlock where
  position : Nat
  length : Nat
  textBytes : Bytes
deriving DecidableEq, Repr

/-- The scanning loop of `extractTextBlocks`.  The source is a `while`
loop advancing `ccPos` by at least one byte per iteration; `fuel`
structurally bounds the iteration count (a fuel of `buffer.length` is
always enough since every iteration strictly increases `ccPos`). -/
def extractLoop (buffer : Bytes) : Nat → Nat → List TextBlock → List TextBlock
  | 0, _, blocks => blocks
  | fuel + 1, ccPos, blocks =>
    if ccPos < buffer.length then
      -- `const cmd = buffer[ccPos]; const curCmdPos = ccPos; ccPos++`
      if buffer.getD ccPos 0 = 0xFD then
        -- `if (ccPos >= ccLen) break;`
        if ccPos + 1 ≥ buffer.length then blocks
        else if validateTextStructure buffer ccPos then
          -- `lineLen`, `textStart = curCmdPos + 2`, `textEnd = textStart + lineLen`
          if ccPos + 2 + buffer.getD (ccPos + 1) 0 > buffer.length then
            extractLoop buffer fuel (ccPos + 1) blocks
          else
            extractLoop buffer fuel (ccPos + 2 + buffer.getD (ccPos + 1) 0 + 1)
              (blocks ++ [⟨ccPos, buffer.getD (ccPos + 1) 0,
                (buffer.drop (ccPos + 2)).take (buffer.getD (ccPos + 1) 0)⟩])
        else
          extractLoop buffer fuel (ccPos + 1) blocks
      else
        extractLoop buffer fuel (ccPos + 1) blocks
    else blocks

/-- `extractTextBlocks` from src/src/utils/extractTextBlocks.ts: scan the
decompressed container from offset `HEADER_SIZE = 0x14`. -/
def extractTextBlocks (buffer : Bytes) : List TextBlock :=
  extractLoop buffer buffer.length 0x14 []

/-! ## Line wrapping (`processEnText`, src/unnamed/part_013) -/

/-- One iteration of the `processEnText` loop at index `i`.  State:
the character array (mutated in place by the source), the running `width`
and `lastSpacePos` (−1 when no space is recorded). -/
def wrapStep (st : List Char × Nat × Int) (i : Nat) : List Char × Nat × Int :=
  let chars := st.1
  let width := st.2.1
  let lastSpacePos := st.2.2
  let c := chars.getD i ' '
  let ls1 : Int := if c = ' ' then (i : Int) else lastSpacePos
  let w2 : Nat := if c = '\n' then 0 else width + 1
  let ls2 : Int := if c = '\n' then -1 else ls1
  if w2 ≥ 53 then
    if ls2 ≠ -1 then
      (chars.set ls2.toNat '\n', i - ls2.toNat, -1)
    else
      (chars, 0, -1)
  else
    (chars, w2, ls2)

/-- `processEnText` on a list of characters: fold the loop body over all
indices (the JS `for` loop over `chars`). -/
def processEnTextL (chars : List Char) : List Char :=
  ((List.range chars.length).foldl wrapStep (chars, 0, -1)).1

/-- `processEnText` from src/unnamed/part_013: wrap a replacement string
at width 53, breaking at the last recorded space.  JS `Array.from`
iterates Unicode code points, as does `String.toList`. -/
def processEnText (enText : String) : String :=
  ⟨processEnTextL enText.toList⟩

/-- Whether the `processEnText` iteration at index `i` hits width 53 with
no space recorded in the current line (the branch that resets the width
counter without inserting a break). -/
def noSpaceBreach (st : List Char × Nat × Int) (i : Nat) : Bool :=
  let c := st.1.getD i ' '
  c ≠ '\n' && st.2.1 + 1 ≥ 53 && c ≠ ' ' && st.2.2 = -1

/-- `wrapStep` instrumented with a flag recording whether a width-53 reset
without a recorded space ever happened. -/
def wrapStepF (st : (List Char × Nat × Int) × Bool) (i : Nat) :
    (List Char × Nat × Int) × Bool :=
  (wrapStep st.1 i, st.2 || noSpaceBreach st.1 i)

/-- True when the wrapping of `chars` at some point reaches width 53 with
no space recorded in the current line. -/
def hadNoSpaceReset (chars : List Char) : Bool :=
  ((List.range chars.length).foldl wrapStepF ((chars, 0, -1), false)).2

/-! ## Injection engine (src/unnamed/part_013) -/

/-- `buffer.readUInt16LE(off)`: little-endian 16-bit read, RangeError when
out of bounds. -/
def readUInt16LE (b : Bytes) (off : Nat) : Except JsErr Nat :=
  if off + 2 ≤ b.length then .ok (b.getD off 0 + 256 * b.getD (off + 1) 0)
  else .error .rangeError

/-- `buffer.writeUInt16LE(v, off)`: little-endian 16-bit write, RangeError
when the value or offset is out of range. -/
def writeUInt16LE (b : Bytes) (off : Nat) (v : Int) : Except JsErr Bytes :=
  if 0 ≤ v ∧ v ≤ 0xFFFF ∧ off + 2 ≤ b.length then
    .ok ((b.set off (v.toNat % 256)).set (off + 1) (v.toNat / 256))
  else .error .rangeError

/-- Whether `pat` occurs in `buf` starting exactly at position `s`. -/
def matchAt (buf pat : Bytes) (s : Nat) : Bool :=
  decide ((buf.drop s).take pat.length = pat)

/-- Scan for the first occurrence of `pat` in `buf` at a position `≥ s`,
with structural fuel. -/
def indexOfAux (buf pat : Bytes) : Nat → Nat → Option Nat
  | _, 0 => none
  | s, fuel + 1 =>
    if s + pat.length ≤ buf.length then
      if matchAt buf pat s then some s else indexOfAux buf pat (s + 1) fuel
    else none

/-- `buffer.indexOf(pat, start)`: index of the first occurrence of `pat`
at or after `start`, if any. -/
def indexOfFrom (buf pat : Bytes) (start : Nat) : Option Nat :=
  indexOfAux buf pat start (buf.length + 1 - start)

/-- Splice: replace the `patLen` bytes at position `s` by `rep`. -/
def spliceAt (buf : Bytes) (s patLen : Nat) (rep : Bytes) : Bytes :=
  buf.take s ++ rep ++ buf.drop (s + patLen)

/-- State of the rewrite loop of `injectFile`: the buffer being rewritten,
the search cursor `basePos`, and whether a lookup has failed (the thrown
string of `replaceBuffer` is caught by `injectFile` and recorded via
`result.fail`). -/
structure RewriteState where
  buf : Bytes
  basePos : Nat
  fail : Bool
deriving DecidableEq, Repr

/-- One iteration of the rewrite loop: `replaceBuffer(newBuffer, jpBuffer,
enBuffer, basePos)` plus the caller's catch.  On success the cursor is set
to the start of the matched range (`pos: startPos` in the source). -/
def rewriteStep (st : RewriteState) (blk : Bytes × Bytes) : RewriteState :=
  match indexOfFrom st.buf blk.1 st.basePos with
  | none => { st with fail := true }
  | some startPos =>
    { buf := spliceAt st.buf startPos blk.1.length blk.2
      basePos := startPos
      fail := st.fail }

/-- The rewrite loop over all text blocks (pairs of original bytes and
final replacement bytes), in source order. -/
def rewritePhase (st : RewriteState) (blks : List (Bytes × Bytes)) : RewriteState :=
  blks.foldl rewriteStep st

/-- Per-record encoding of `injectFile`: wrap, Shift-JIS encode, and build
`0xFD | len | bytes | 0x00`; `none` when the encoding exceeds 0xFF bytes
(the source then leaves `block.enBuffer` undefined). -/
def encodeBlock (encode : String → Bytes) (enText : String) : Option Bytes :=
  let enBytes := encode (processEnText enText)
  if enBytes.length > 0xFF then none
  else some (0xFD :: enBytes.length :: (enBytes ++ [0x00]))

/-- State of the whole-body budget loop of `injectFile`. -/
structure BudgetState where
  newLen : Int
  totalOverLen : Int
  lostLines : Nat
  halfSuccess : Bool
  outBlocks : List (Bytes × Bytes)
deriving DecidableEq, Repr

/-- One iteration of the budget loop.  Reading `enBuffer.length` when
`enBuffer` is undefined (oversize record) raises an uncaught TypeError. -/
def budgetStep (st : BudgetState) (blk : Bytes × Option Bytes) : Except JsErr BudgetState :=
  match blk.2 with
  | none => .error .typeError
  | some en =>
    let diffLen : Int := (en.length : Int) - (blk.1.length : Int)
    if st.newLen + diffLen ≤ 0xFFFF then
      .ok { st with newLen := st.newLen + diffLen
                    outBlocks := st.outBlocks ++ [(blk.1, en)] }
    else
      .ok { st with halfSuccess := true
                    totalOverLen := st.totalOverLen + (st.newLen + diffLen - 0xFFFF)
                    lostLines := st.lostLines + 1
                    outBlocks := st.outBlocks ++ [(blk.1, blk.1)] }

/-- The budget loop over all blocks, in source order. -/
def budgetPhase (st : BudgetState) (blks : List (Bytes × Option Bytes)) :
    Except JsErr BudgetState :=
  blks.foldlM budgetStep st

/-- Tri-state result of injecting one file (the `Result` record of
src/unnamed/part_013, without the diagnostic strings). -/
structure InjResult where
  success : Bool
  halfSuccess : Bool
  fail : Bool
deriving DecidableEq, Repr

/-- Final flag fixups of `injectFile` and the `writeFileSync` output:
`success` is set when neither `halfSuccess` nor `fail` is, and `fail`
clears `halfSuccess` (`if (result.fail) result.halfSuccess = false`). -/
def injectFinish (st : BudgetState) (rst : RewriteState) :
    Except JsErr (InjResult × Option Bytes) :=
  .ok ({ success := !(st.halfSuccess || decide (0 < st.lostLines)) && !rst.fail
         halfSuccess := (st.halfSuccess || decide (0 < st.lostLines)) && !rst.fail
         fail := rst.fail }, some rst.buf)

/-- `injectFile` from src/unnamed/part_013, parameterised over the
Shift-JIS encoder (iconv-lite, an external library) and over the scanned
record list (each record's `jpBuffer`, the full original byte group
`0xFD len text 0x00`).  Returns the result flags and the buffer written
to the output path (`none` when the function returns before
`writeFileSync`). -/
def injectFileCore (encode : String → Bytes) (buffer : Bytes)
    (jpBuffers : List Bytes) (enLines : List String) :
    Except JsErr (InjResult × Option Bytes) :=
  -- pre-check: record count versus non-empty line count
  if jpBuffers.length ≠ enLines.length then
    .ok ({ success := false, halfSuccess := false, fail := true }, none)
  else
    -- `const oldLen = buffer.readUInt16LE(0x14)`
    readUInt16LE buffer 0x14 >>= fun oldLen =>
    -- budget pass over the encoding pass's blocks (the source's `blks`,
    -- written out in place; `lost1` is the number of oversize blocks)
    budgetPhase
      { newLen := (oldLen : Int)
        totalOverLen := 0
        lostLines := ((jpBuffers.zip (enLines.map (encodeBlock encode))).filter
          (fun b => b.2.isNone)).length
        halfSuccess := decide
          (0 < ((jpBuffers.zip (enLines.map (encodeBlock encode))).filter
            (fun b => b.2.isNone)).length)
        outBlocks := [] }
      (jpBuffers.zip (enLines.map (encodeBlock encode))) >>= fun st =>
    -- `newBuffer.writeUInt16LE(newLen, 0x14)` then the rewrite loop
    writeUInt16LE buffer 0x14 st.newLen >>= fun buf0 =>
    injectFinish st (rewritePhase { buf := buf0, basePos := 0x18, fail := false } st.outBlocks)

/-- Modelled from the spec: the `jpBuffer` field of the text blocks
consumed by src/unnamed/part_013.  The scanner revision present under
src/ (src/src/utils/extractTextBlocks.ts) stores only the text bytes;
the injector's revision of the scanner (imported as
./utils/extractTextBlocks.js but absent from the tree) must also carry
the full original byte group, which per the specification's record layout
`0xFD | len | text | 0x00` and its use in `replaceBuffer` is the marker,
the length byte, the text bytes and the terminator. -/
def jpRecordOf (blk : TextBlock) : Bytes :=
  0xFD :: blk.length :: (blk.textBytes ++ [0x00])

/-- Split a character list on `'\n'`, keeping empty segments (the
behaviour of JS `String.prototype.split("\n")`). -/
def splitLines : List Char → List (List Char)
  | [] => [[]]
  | c :: rest =>
    if c = '\n' then [] :: splitLines rest
    else
      match splitLines rest with
      | [] => [[c]]
      | l :: ls => (c :: l) :: ls

/-- The translator line list: split the text file on newlines, drop empty
lines, decode the `\` escape back to `0x0A` (the source's
`txt.split("\n").filter(line => line !== "").map(line =>
line.replaceAll(BSLASH, "\n"))`). -/
def enLinesOf (txt : String) : List String :=
  ((splitLines txt.toList).filter (fun l => l ≠ [])).map
    (fun l => String.mk (l.map (fun c => if c = '\\' then '\n' else c)))

/-- `injectFile` on a raw decompressed container and translator file. -/
def injectFile (encode : String → Bytes) (buffer : Bytes) (txt : String) :
    Except JsErr (InjResult × Option Bytes) :=
  injectFileCore encode buffer ((extractTextBlocks buffer).map jpRecordOf) (enLinesOf txt)

/-- Shift-JIS encoding restricted to ASCII strings, where it is the
identity on code points: the concrete encoder used to instantiate the
`encode` parameter (iconv-lite is external to the repository). -/
def asciiEncode (s : String) : Bytes :=
  s.toList.map Char.toNat

/-! ## Helper lemmas: slices and the validator -/

theorem slice_length (b : Bytes) (s n : Nat) (h : s + n ≤ b.length) :
    ((b.drop s).take n).length = n := by
  simp only [List.length_take, List.length_drop]
  omega

theorem slice_eq_map (b : Bytes) (s n : Nat) (h : s + n ≤ b.length) :
    (b.drop s).take n = (List.range n).map (fun k => b.getD (s + k) 0) := by
  apply List.ext_getElem
  · simp only [slice_length b s n h, List.length_map, List.length_range]
  · intro i h1 h2
    have hi : i < n := by
      have := slice_length b s n h
      omega
    have hsi : s + i < b.length := by omega
    rw [List.getElem_map, List.getElem_range, List.getElem_take, List.getElem_drop,
      List.getD_eq_getElem b 0 hsi]

theorem contains_slice_iff (b : Bytes) (p : Nat)
    (hb : p + 2 + b.getD (p + 1) 0 ≤ b.length) :
    (textSlice b p).contains 0 = true ↔
      ∃ k, k < b.getD (p + 1) 0 ∧ b.getD (p + 2 + k) 0 = 0 := by
  unfold textSlice
  rw [slice_eq_map b (p + 2) (b.getD (p + 1) 0) hb]
  simp only [List.contains, List.elem_iff, List.mem_map, List.mem_range]

theorem slice3_iff (b : Bytes) (p : Nat) (h3 : b.getD (p + 1) 0 = 3)
    (hb : p + 2 + 3 ≤ b.length) :
    textSlice b p = [0x12, 0xFB, 0x01] ↔
      b.getD (p + 2) 0 = 0x12 ∧ b.getD (p + 3) 0 = 0xFB ∧ b.getD (p + 4) 0 = 0x01 := by
  unfold textSlice
  rw [h3, slice_eq_map b (p + 2) 3 hb]
  have hr : List.range 3 = [0, 1, 2] := rfl
  rw [hr]
  simp only [List.map_cons, List.map_nil, List.cons.injEq, and_true]

theorem validate_iff (b : Bytes) (p : Nat) :
    validateTextStructure b p = true ↔ FiveChecks b p := by
  constructor
  · intro h
    unfold validateTextStructure at h
    by_cases h1 : b.getD (p + 1) 0 = 0
    · rw [if_pos h1] at h
      exact absurd h (by simp)
    rw [if_neg h1] at h
    by_cases h2a : p + 2 + b.getD (p + 1) 0 ≥ b.length
    · rw [if_pos h2a] at h
      exact absurd h (by simp)
    rw [if_neg h2a] at h
    by_cases h2b : b.getD (p + 2 + b.getD (p + 1) 0) 0 ≠ 0
    · rw [if_pos h2b] at h
      exact absurd h (by simp)
    rw [if_neg h2b] at h
    by_cases h3 : (textSlice b p).contains 0 = true
    · rw [if_pos h3] at h
      exact absurd h (by simp)
    rw [if_neg h3] at h
    by_cases h4 : cp932Consume (textSlice b p) = b.getD (p + 1) 0 + 1
    · rw [if_pos h4] at h
      exact absurd h (by simp)
    rw [if_neg h4] at h
    push_neg at h2a h2b
    refine ⟨by omega, ⟨by omega, h2b⟩, ?_, h4, ?_⟩
    · intro k hk he
      exact h3 ((contains_slice_iff b p (by omega)).mpr ⟨k, hk, he⟩)
    · rintro ⟨hl3, hsl⟩
      rw [(slice3_iff b p hl3 (by omega)).mp hsl |>.1,
        (slice3_iff b p hl3 (by omega)).mp hsl |>.2.1,
        (slice3_iff b p hl3 (by omega)).mp hsl |>.2.2, hl3] at h
      exact absurd h (by simp)
  · rintro ⟨hc1, ⟨hc2a, hc2b⟩, hc3, hc4, hc5⟩
    unfold validateTextStructure
    rw [if_neg (by omega), if_neg (by omega),
      if_neg (by simp only [ne_eq, not_not]; exact hc2b),
      if_neg ?hcontains, if_neg hc4, if_neg ?hfive]
    case hcontains =>
      intro hcont
      obtain ⟨k, hk, he⟩ := (contains_slice_iff b p (by omega)).mp hcont
      exact hc3 k hk he
    case hfive =>
      intro hbool
      simp only [Bool.and_eq_true, decide_eq_true_eq] at hbool
      obtain ⟨⟨⟨hl3, hv0⟩, hv1⟩, hv2⟩ := hbool
      exact hc5 ⟨hl3, (slice3_iff b p hl3 (by omega)).mpr ⟨hv0, hv1, hv2⟩⟩

theorem validate_bound (b : Bytes) (p : Nat) (h : validateTextStructure b p = true) :
    p + 2 + b.getD (p + 1) 0 < b.length :=
  ((validate_iff b p).mp h).2.1.1

theorem validate_pos (b : Bytes) (p : Nat) (h : validateTextStructure b p = true) :
    0 < b.getD (p + 1) 0 :=
  ((validate_iff b p).mp h).1

/-! ## Helper lemmas: the scanning loop -/

theorem extractLoop_succ (b : Bytes) (fuel pos : Nat) (acc : List TextBlock) :
    extractLoop b (fuel + 1) pos acc =
      if pos < b.length then
        if b.getD pos 0 = 0xFD then
          if pos + 1 ≥ b.length then acc
          else if validateTextStructure b pos then
            if pos + 2 + b.getD (pos + 1) 0 > b.length then extractLoop b fuel (pos + 1) acc
            else extractLoop b fuel (pos + 2 + b.getD (pos + 1) 0 + 1)
              (acc ++ [⟨pos, b.getD (pos + 1) 0, (b.drop (pos + 2)).take (b.getD (pos + 1) 0)⟩])
          else extractLoop b fuel (pos + 1) acc
        else extractLoop b fuel (pos + 1) acc
      else acc := rfl

theorem extractLoop_stop (b : Bytes) (fuel pos : Nat) (acc : List TextBlock)
    (h : b.length ≤ pos) : extractLoop b fuel pos acc = acc := by
  cases fuel with
  | zero => rfl
  | succ f => rw [extractLoop_succ, if_neg (by omega)]

theorem extractLoop_nonmarker (b : Bytes) (fuel pos : Nat) (acc : List TextBlock)
    (h1 : pos < b.length) (h2 : b.getD pos 0 ≠ 0xFD) :
    extractLoop b (fuel + 1) pos acc = extractLoop b fuel (pos + 1) acc := by
  rw [extractLoop_succ, if_pos h1, if_neg h2]

theorem extractLoop_invalid (b : Bytes) (fuel pos : Nat) (acc : List TextBlock)
    (h1 : pos < b.length) (h2 : b.getD pos 0 = 0xFD)
    (h3 : validateTextStructure b pos = false) :
    extractLoop b (fuel + 1) pos acc = extractLoop b fuel (pos + 1) acc := by
  rw [extractLoop_succ, if_pos h1, if_pos h2]
  by_cases hb : pos + 1 ≥ b.length
  · rw [if_pos hb, extractLoop_stop b fuel (pos + 1) acc (by omega)]
  · rw [if_neg hb, if_neg (by simp [h3])]

theorem extractLoop_valid (b : Bytes) (fuel pos : Nat) (acc : List TextBlock)
    (h1 : pos < b.length) (h2 : b.getD pos 0 = 0xFD)
    (h3 : validateTextStructure b pos = true) :
    extractLoop b (fuel + 1) pos acc = extractLoop b fuel (pos + 2 + b.getD (pos + 1) 0 + 1)
      (acc ++ [⟨pos, b.getD (pos + 1) 0, (b.drop (pos + 2)).take (b.getD (pos + 1) 0)⟩]) := by
  have hb := validate_bound b pos h3
  rw [extractLoop_succ, if_pos h1, if_pos h2, if_neg (by omega : ¬ pos + 1 ≥ b.length),
    if_pos h3, if_neg (by omega : ¬ pos + 2 + b.getD (pos + 1) 0 > b.length)]

theorem extractLoop_mem (b : Bytes) :
    ∀ fuel pos acc blk, blk ∈ extractLoop b fuel pos acc → blk ∈ acc ∨ pos ≤ blk.position := by
  intro fuel
  induction fuel with
  | zero => intro pos acc blk h; exact Or.inl h
  | succ f ih =>
    intro pos acc blk h
    rw [extractLoop_succ] at h
    split at h
    · split at h
      · split at h
        · exact Or.inl h
        · split at h
          · split at h
            · rcases ih _ _ _ h with hm | hp
              · exact Or.inl hm
              · exact Or.inr (by omega)
            · rcases ih _ _ _ h with hm | hp
              · rcases List.mem_append.mp hm with hm2 | hm2
                · exact Or.inl hm2
                · simp only [List.mem_singleton] at hm2
                  subst hm2
                  exact Or.inr (Nat.le_refl pos)
              · exact Or.inr (by omega)
          · rcases ih _ _ _ h with hm | hp
            · exact Or.inl hm
            · exact Or.inr (by omega)
      · rcases ih _ _ _ h with hm | hp
        · exact Or.inl hm
        · exact Or.inr (by omega)
    · exact Or.inl h

theorem extractLoop_pairwise (b : Bytes) :
    ∀ fuel pos acc, acc.Pairwise (fun x y => x.position < y.position) →
      (∀ x ∈ acc, x.position < pos) →
      (extractLoop b fuel pos acc).Pairwise (fun x y => x.position < y.position) := by
  intro fuel
  induction fuel with
  | zero => intro pos acc hp _; exact hp
  | succ f ih =>
    intro pos acc hp hb
    rw [extractLoop_succ]
    split
    · split
      · split
        · exact hp
        · split
          · split
            · exact ih _ _ hp (fun x hx => by have := hb x hx; omega)
            · apply ih
              · rw [List.pairwise_append]
                refine ⟨hp, by simp, fun x hx y hy => ?_⟩
                simp only [List.mem_singleton] at hy
                subst hy
                exact hb x hx
              · intro x hx
                rcases List.mem_append.mp hx with hx1 | hx1
                · have := hb x hx1; omega
                · simp only [List.mem_singleton] at hx1
                  subst hx1
                  show pos < pos + 2 + b.getD (pos + 1) 0 + 1
                  omega
          · exact ih _ _ hp (fun x hx => by have := hb x hx; omega)
      · exact ih _ _ hp (fun x hx => by have := hb x hx; omega)
    · exact hp

/-! ## Claim C1: record emission at a scanned 0xFD byte -/

/-- C1 (amended): at every position the scan actually examines whose byte
is `0xFD`, the scanner emits a text record starting there if and only if
the five validation checks hold (`validateTextStructure` decides exactly
the five declarative checks), and when any check fails the scan advances
exactly one byte past the `0xFD` and continues.  (As originally stated,
quantified over every position of the buffer whose byte is `0xFD`, the
claim is false: positions the scan never reaches, e.g. inside an already
consumed record or before offset 0x14, can satisfy all five checks yet no
record is emitted there.) -/
theorem scanner_examined_iff_five_checks (b : Bytes) (pos : Nat) :
    (validateTextStructure b pos = true ↔ FiveChecks b pos) ∧
    (∀ fuel acc, pos < b.length → b.getD pos 0 = 0xFD →
      (FiveChecks b pos →
        extractLoop b (fuel + 1) pos acc =
          extractLoop b fuel (pos + 2 + b.getD (pos + 1) 0 + 1)
            (acc ++ [⟨pos, b.getD (pos + 1) 0,
              (b.drop (pos + 2)).take (b.getD (pos + 1) 0)⟩])) ∧
      (¬ FiveChecks b pos →
        extractLoop b (fuel + 1) pos acc = extractLoop b fuel (pos + 1) acc)) := by
  refine ⟨validate_iff b pos, fun fuel acc h1 h2 => ⟨fun hf => ?_, fun hf => ?_⟩⟩
  · exact extractLoop_valid b fuel pos acc h1 h2 ((validate_iff b pos).mpr hf)
  · have hv : validateTextStructure b pos = false := by
      rw [Bool.eq_false_iff]
      intro ht
      exact hf ((validate_iff b pos).mp ht)
    exact extractLoop_invalid b fuel pos acc h1 h2 hv

/-- Concrete input for the C1 witness: a valid record at offset 0x14. -/
def c1WitnessBuf : Bytes := List.replicate 0x14 0x41 ++ [0xFD, 1, 0x41, 0x00]

/-- Witness for C1: at the examined position 0x14 of `c1WitnessBuf`, the
five checks hold and the scanner emits the record there. -/
theorem scanner_examined_iff_five_checks_witness :
    extractLoop c1WitnessBuf 6 0x14 [] =
      extractLoop c1WitnessBuf 5 (0x14 + 2 + c1WitnessBuf.getD (0x14 + 1) 0 + 1)
        ([] ++ [⟨0x14, c1WitnessBuf.getD (0x14 + 1) 0,
          (c1WitnessBuf.drop (0x14 + 2)).take (c1WitnessBuf.getD (0x14 + 1) 0)⟩]) :=
  (((scanner_examined_iff_five_checks c1WitnessBuf 0x14).2 5 []
    (by decide) (by decide)).1 (by decide))

/-- Concrete input refuting C1 as stated: the buffer `FD 01 41 00`. -/
def c1CounterBuf : Bytes := [0xFD, 1, 0x41, 0x00]

/-- Counterexample to C1 as stated: position 0 of `c1CounterBuf` holds a
`0xFD` byte and satisfies all five validation checks, yet the scanner
emits no record at all (the scan never examines any position below 0x14),
so "emits a record at p iff the five checks hold" fails at p = 0. -/
theorem scanner_emits_iff_counterexample :
    c1CounterBuf.getD 0 0 = 0xFD ∧ FiveChecks c1CounterBuf 0 ∧
      extractTextBlocks c1CounterBuf = [] := by
  decide

/-! ## Claim C8: single pass and start offset -/

/-- C8 (amended): the scan is a single left-to-right pass that starts at
offset 0x14 (`HEADER_SIZE` in the source), not 0x18: every emitted record
position is ≥ 0x14 and the emitted positions are strictly increasing, and
at each examined position whose byte is not `0xFD` the scan advances
exactly one byte.  (As originally stated the claim is false: the source
starts the scan at 0x14, and positions 0x14..0x17 are examined as
candidate record starts.) -/
theorem scan_starts_at_0x14 :
    (∀ b : Bytes, extractTextBlocks b = extractLoop b b.length 0x14 []) ∧
    (∀ (b : Bytes) (blk : TextBlock), blk ∈ extractTextBlocks b → 0x14 ≤ blk.position) ∧
    (∀ b : Bytes, (extractTextBlocks b).Pairwise (fun x y => x.position < y.position)) ∧
    (∀ (b : Bytes) (fuel pos : Nat) (acc : List TextBlock), pos < b.length →
      b.getD pos 0 ≠ 0xFD →
      extractLoop b (fuel + 1) pos acc = extractLoop b fuel (pos + 1) acc) := by
  refine ⟨fun b => rfl, fun b blk h => ?_, fun b => ?_, extractLoop_nonmarker⟩
  · rcases extractLoop_mem b _ _ _ _ h with hm | hp
    · exact absurd hm (List.not_mem_nil blk)
    · exact hp
  · exact extractLoop_pairwise b _ _ _ List.Pairwise.nil
      (fun x hx => absurd hx (List.not_mem_nil x))

/-- Concrete input for the C8 witness. -/
def c8WitnessBuf : Bytes := List.replicate 0x14 0 ++ [0xFD, 1, 0x42, 0x00]

/-- Witness for C8: the emitted record of `c8WitnessBuf` is at position
≥ 0x14, and at the non-`0xFD` position 0x16 the scan advances one byte. -/
theorem scan_starts_at_0x14_witness :
    0x14 ≤ (⟨0x14, 1, [0x42]⟩ : TextBlock).position ∧
      extractLoop c8WitnessBuf 3 0x16 [] = extractLoop c8WitnessBuf 2 (0x16 + 1) [] :=
  ⟨scan_starts_at_0x14.2.1 c8WitnessBuf ⟨0x14, 1, [0x42]⟩ (by decide),
   scan_starts_at_0x14.2.2.2 c8WitnessBuf 2 0x16 [] (by decide) (by decide)⟩

/-- Concrete input refuting C8 as stated. -/
def c8CounterBuf : Bytes := List.replicate 0x14 0x41 ++ [0xFD, 1, 0x43, 0x00]

/-- Counterexample to C8 as stated: the scanner examines position
0x14 < 0x18 as a candidate record start and emits a record there, so the
scan does not start at offset 0x18. -/
theorem scan_start_counterexample :
    extractTextBlocks c8CounterBuf = [⟨0x14, 1, [0x43]⟩] ∧ (0x14 : Nat) < 0x18 := by
  decide

/-! ## Claim C10: validator safety -/

/-- C10: `validateTextStructure` is total (a Lean function) with every
out-of-range read modelled as the rejecting default 0; whenever it
returns `true` the whole candidate record lies inside the buffer,
`p + 2 + len < length b`, and consequently the `textEnd > buffer.length`
rejection branch of `extractTextBlocks` is never taken for a validated
record: at a validated `0xFD` position the scan always takes the emit
path. -/
theorem validate_in_bounds :
    (∀ (b : Bytes) (p : Nat), validateTextStructure b p = true →
      p + 2 + b.getD (p + 1) 0 < b.length) ∧
    (∀ (b : Bytes) (fuel pos : Nat) (acc : List TextBlock), pos < b.length →
      b.getD pos 0 = 0xFD → validateTextStructure b pos = true →
      extractLoop b (fuel + 1) pos acc =
        extractLoop b fuel (pos + 2 + b.getD (pos + 1) 0 + 1)
          (acc ++ [⟨pos, b.getD (pos + 1) 0,
            (b.drop (pos + 2)).take (b.getD (pos + 1) 0)⟩])) :=
  ⟨validate_bound, fun b fuel pos acc h1 h2 h3 => extractLoop_valid b fuel pos acc h1 h2 h3⟩

/-- Concrete input for the C10 witness. -/
def c10WitnessBuf : Bytes := List.replicate 0x14 0 ++ [0xFD, 2, 0x41, 0x42, 0x00]

/-- Witness for C10: on `c10WitnessBuf` the validated record at 0x14 lies
in bounds and the scan takes the emit path. -/
theorem validate_in_bounds_witness :
    0x14 + 2 + c10WitnessBuf.getD (0x14 + 1) 0 < c10WitnessBuf.length ∧
      extractLoop c10WitnessBuf 9 0x14 [] =
        extractLoop c10WitnessBuf 8 (0x14 + 2 + c10WitnessBuf.getD (0x14 + 1) 0 + 1)
          ([] ++ [⟨0x14, c10WitnessBuf.getD (0x14 + 1) 0,
            (c10WitnessBuf.drop (0x14 + 2)).take (c10WitnessBuf.getD (0x14 + 1) 0)⟩]) :=
  ⟨validate_in_bounds.1 c10WitnessBuf 0x14 (by decide),
   validate_in_bounds.2 c10WitnessBuf 8 0x14 [] (by decide) (by decide) (by decide)⟩

/-! ## Helper lemmas: buffer search and splicing -/

theorem matchAt_iff (buf pat : Bytes) (s : Nat) :
    matchAt buf pat s = true ↔ (buf.drop s).take pat.length = pat := by
  simp [matchAt]

theorem matchAt_bound (buf pat : Bytes) (s : Nat) (hp : pat ≠ [])
    (h : matchAt buf pat s = true) : s + pat.length ≤ buf.length := by
  rw [matchAt_iff] at h
  have hl := congrArg List.length h
  simp only [List.length_take, List.length_drop] at hl
  have hmin : pat.length ⊓ (buf.length - s) = pat.length := hl
  have hle : pat.length ≤ buf.length - s := min_eq_left_iff.mp hmin
  have hpos : 0 < pat.length := List.length_pos.mpr hp
  omega

theorem indexOfAux_found (buf pat : Bytes) :
    ∀ fuel s r, indexOfAux buf pat s fuel = some r →
      s ≤ r ∧ matchAt buf pat r = true ∧
        ∀ t, s ≤ t → t < r → matchAt buf pat t = false := by
  intro fuel
  induction fuel with
  | zero => intro s r h; exact absurd h (by simp [indexOfAux])
  | succ f ih =>
    intro s r h
    rw [indexOfAux] at h
    split at h
    · split at h
      · rename_i hm
        obtain rfl : s = r := by injection h
        exact ⟨Nat.le_refl s, hm, fun t h1 h2 => absurd h2 (by omega)⟩
      · rename_i hm
        obtain ⟨ih1, ih2, ih3⟩ := ih (s + 1) r h
        refine ⟨by omega, ih2, fun t h1 h2 => ?_⟩
        rcases Nat.eq_or_lt_of_le h1 with rfl | hlt
        · exact Bool.eq_false_iff.mpr hm
        · exact ih3 t (by omega) h2
    · exact absurd h (by simp)

theorem indexOfAux_none (buf pat : Bytes) (hp : pat ≠ []) :
    ∀ fuel s, buf.length + 1 - s ≤ fuel → indexOfAux buf pat s fuel = none →
      ∀ t, s ≤ t → matchAt buf pat t = false := by
  intro fuel
  induction fuel with
  | zero =>
    intro s hf _ t ht
    rw [Bool.eq_false_iff]
    intro hm
    have hb := matchAt_bound buf pat t hp hm
    have hpos : 0 < pat.length := List.length_pos.mpr hp
    omega
  | succ f ih =>
    intro s hf h t ht
    rw [indexOfAux] at h
    split at h
    · split at h
      · exact absurd h (by simp)
      · rename_i hm
        rcases Nat.eq_or_lt_of_le ht with rfl | hlt
        · exact Bool.eq_false_iff.mpr hm
        · exact ih (s + 1) (by omega) h t (by omega)
    · rename_i hroom
      rw [Bool.eq_false_iff]
      intro hm
      have hb := matchAt_bound buf pat t hp hm
      omega

theorem indexOfFrom_found (buf pat : Bytes) (start r : Nat)
    (h : indexOfFrom buf pat start = some r) :
    start ≤ r ∧ matchAt buf pat r = true ∧
      ∀ t, start ≤ t → t < r → matchAt buf pat t = false :=
  indexOfAux_found buf pat _ start r h

theorem indexOfFrom_none (buf pat : Bytes) (start : Nat) (hp : pat ≠ [])
    (h : indexOfFrom buf pat start = none) :
    ∀ t, start ≤ t → matchAt buf pat t = false :=
  indexOfAux_none buf pat hp _ start (Nat.le_refl _) h

theorem spliceAt_length (buf rep : Bytes) (s patLen : Nat)
    (h : s + patLen ≤ buf.length) :
    (spliceAt buf s patLen rep).length + patLen = buf.length + rep.length := by
  simp only [spliceAt, List.length_append, List.length_take, List.length_drop]
  omega

theorem spliceAt_getD_lt (buf rep : Bytes) (s patLen k : Nat) (d : Nat)
    (h : s + patLen ≤ buf.length) (hk : k < s) :
    (spliceAt buf s patLen rep).getD k d = buf.getD k d := by
  unfold spliceAt
  rw [List.getD_eq_getElem?_getD, List.getD_eq_getElem?_getD, List.append_assoc]
  rw [List.getElem?_append, if_pos (by simp only [List.length_take]; omega)]
  rw [List.getElem?_take, if_pos hk]

/-! ## Helper lemmas: the budget and rewrite loops -/

/-- The size change of a (jpBuffer, enBuffer) pair. -/
def blockDiff (blk : Bytes × Bytes) : Int := (blk.2.length : Int) - (blk.1.length : Int)

/-- Total size change of a block list. -/
def diffSum (l : List (Bytes × Bytes)) : Int := (l.map blockDiff).sum

theorem diffSum_nil : diffSum [] = 0 := rfl

theorem diffSum_append (l1 l2 : List (Bytes × Bytes)) :
    diffSum (l1 ++ l2) = diffSum l1 + diffSum l2 := by
  simp [diffSum]

theorem diffSum_cons (blk : Bytes × Bytes) (l : List (Bytes × Bytes)) :
    diffSum (blk :: l) = blockDiff blk + diffSum l := by
  simp [diffSum]

theorem except_bind_ok {α β : Type} (a : α) (k : α → Except JsErr β) :
    (Except.ok a >>= k) = k a := rfl

theorem except_bind_error {α β : Type} (e : JsErr) (k : α → Except JsErr β) :
    ((Except.error e : Except JsErr α) >>= k) = Except.error e := rfl

theorem budgetPhase_nil (st : BudgetState) : budgetPhase st [] = .ok st := rfl

theorem budgetPhase_cons (st : BudgetState) (blk : Bytes × Option Bytes)
    (blks : List (Bytes × Option Bytes)) :
    budgetPhase st (blk :: blks) = budgetStep st blk >>= fun st2 => budgetPhase st2 blks := rfl

theorem budgetPhase_append (st : BudgetState) (l l2 : List (Bytes × Option Bytes)) :
    budgetPhase st (l ++ l2) = budgetPhase st l >>= fun s2 => budgetPhase s2 l2 := by
  simp [budgetPhase, List.foldlM_append]

theorem budgetStep_none (st : BudgetState) (jp : Bytes) :
    budgetStep st (jp, none) = .error .typeError := rfl

theorem budgetStep_some (st : BudgetState) (jp en : Bytes) :
    budgetStep st (jp, some en) =
      if st.newLen + ((en.length : Int) - (jp.length : Int)) ≤ 0xFFFF then
        .ok { st with newLen := st.newLen + ((en.length : Int) - (jp.length : Int))
                      outBlocks := st.outBlocks ++ [(jp, en)] }
      else
        .ok { st with halfSuccess := true
                      totalOverLen := st.totalOverLen +
                        (st.newLen + ((en.length : Int) - (jp.length : Int)) - 0xFFFF)
                      lostLines := st.lostLines + 1
                      outBlocks := st.outBlocks ++ [(jp, jp)] } := rfl

theorem budgetPhase_invariants :
    ∀ (blks : List (Bytes × Option Bytes)) (st st2 : BudgetState),
      budgetPhase st blks = .ok st2 →
      st2.newLen - diffSum st2.outBlocks = st.newLen - diffSum st.outBlocks ∧
      (st.newLen ≤ 0xFFFF → st2.newLen ≤ 0xFFFF) ∧
      (∀ b2 ∈ st2.outBlocks, b2 ∈ st.outBlocks ∨ ∃ x ∈ blks, b2.1 = x.1) := by
  intro blks
  induction blks with
  | nil =>
    intro st st2 h
    rw [budgetPhase_nil] at h
    injection h with h
    subst h
    exact ⟨rfl, fun hx => hx, fun b2 hb2 => Or.inl hb2⟩
  | cons blk rest ih =>
    intro st st2 h
    rw [budgetPhase_cons] at h
    rcases blk with ⟨jp, en⟩
    cases en with
    | none =>
      rw [budgetStep_none, except_bind_error] at h
      exact absurd h (by simp)
    | some en =>
      rw [budgetStep_some] at h
      split at h
      · rename_i hle
        rw [except_bind_ok] at h
        obtain ⟨i1, i2, i3⟩ := ih _ _ h
        refine ⟨?_, fun _ => i2 hle, fun b2 hb2 => ?_⟩
        · rw [i1]
          simp only [diffSum_append, diffSum_cons, diffSum_nil, blockDiff]
          omega
        · rcases i3 b2 hb2 with hm | ⟨x, hx, he⟩
          · rcases List.mem_append.mp hm with hm2 | hm2
            · exact Or.inl hm2
            · simp only [List.mem_singleton] at hm2
              subst hm2
              exact Or.inr ⟨(jp, some en), List.mem_cons_self _ _, rfl⟩
          · exact Or.inr ⟨x, List.mem_cons_of_mem _ hx, he⟩
      · rename_i hgt
        rw [except_bind_ok] at h
        obtain ⟨i1, i2, i3⟩ := ih _ _ h
        refine ⟨?_, fun hst => i2 (by simpa using hst), fun b2 hb2 => ?_⟩
        · rw [i1]
          simp only [diffSum_append, diffSum_cons, diffSum_nil, blockDiff]
          omega
        · rcases i3 b2 hb2 with hm | ⟨x, hx, he⟩
          · rcases List.mem_append.mp hm with hm2 | hm2
            · exact Or.inl hm2
            · simp only [List.mem_singleton] at hm2
              subst hm2
              exact Or.inr ⟨(jp, some en), List.mem_cons_self _ _, rfl⟩
          · exact Or.inr ⟨x, List.mem_cons_of_mem _ hx, he⟩

theorem rewritePhase_nil (st : RewriteState) : rewritePhase st [] = st := rfl

theorem rewritePhase_cons (st : RewriteState) (blk : Bytes × Bytes)
    (blks : List (Bytes × Bytes)) :
    rewritePhase st (blk :: blks) = rewritePhase (rewriteStep st blk) blks := rfl

theorem rewriteStep_ok (st : RewriteState) (blk : Bytes × Bytes) (s : Nat)
    (h : indexOfFrom st.buf blk.1 st.basePos = some s) :
    rewriteStep st blk =
      { buf := spliceAt st.buf s blk.1.length blk.2, basePos := s, fail := st.fail } := by
  unfold rewriteStep
  rw [h]

theorem rewriteStep_fail_elim (st : RewriteState) (blk : Bytes × Bytes)
    (h : (rewriteStep st blk).fail = false) :
    st.fail = false ∧ ∃ s, indexOfFrom st.buf blk.1 st.basePos = some s := by
  unfold rewriteStep at h
  cases hio : indexOfFrom st.buf blk.1 st.basePos with
  | none => rw [hio] at h; simp at h
  | some s => rw [hio] at h; exact ⟨h, s, rfl⟩

theorem rewritePhase_invariants :
    ∀ (blks : List (Bytes × Bytes)) (st : RewriteState),
      (rewritePhase st blks).fail = false → (∀ x ∈ blks, x.1 ≠ []) →
      ((rewritePhase st blks).buf.length : Int) = (st.buf.length : Int) + diffSum blks ∧
      st.basePos ≤ (rewritePhase st blks).basePos ∧
      (∀ k d, k < st.basePos → (rewritePhase st blks).buf.getD k d = st.buf.getD k d) ∧
      st.fail = false := by
  intro blks
  induction blks with
  | nil =>
    intro st h _
    rw [rewritePhase_nil] at h ⊢
    exact ⟨by simp [diffSum_nil], Nat.le_refl _, fun k d _ => rfl, h⟩
  | cons blk rest ih =>
    intro st h hne
    rw [rewritePhase_cons] at h ⊢
    obtain ⟨l1, l2, l3, l4⟩ := ih (rewriteStep st blk) h
      (fun x hx => hne x (List.mem_cons_of_mem _ hx))
    obtain ⟨hstf, s, hs⟩ := rewriteStep_fail_elim st blk l4
    have hfd := indexOfFrom_found st.buf blk.1 st.basePos s hs
    have hbound := matchAt_bound st.buf blk.1 s (hne blk (List.mem_cons_self _ _)) hfd.2.1
    have hstep := rewriteStep_ok st blk s hs
    have hsplen := spliceAt_length st.buf blk.2 s blk.1.length hbound
    refine ⟨?_, ?_, ?_, hstf⟩
    · rw [l1, hstep]
      simp only [diffSum_cons, blockDiff]
      omega
    · rw [hstep] at l2 ⊢
      exact Nat.le_trans hfd.1 l2
    · intro k d hk
      rw [l3 k d (by rw [hstep]; simp only []; omega)]
      rw [hstep]
      simp only []
      exact spliceAt_getD_lt st.buf blk.2 s blk.1.length k d hbound (by omega)

/-! ## Claim C2: the whole-body budget loop -/

/-- C2 (confirmed): during injection the records are visited in source
order with a running length (`newLen`, initialised from the u16 at 0x14
by `injectFileCore`); a record whose final replacement is `en` is
accepted, with the running length becoming `L + Δ`, exactly when
`L + Δ ≤ 0xFFFF`; otherwise only that record is rejected: its original
bytes are kept (`(jp, jp)` in the output block list), the file is marked
partial (`halfSuccess`), the overflow `L + Δ − 0xFFFF` is added to the
diagnostic accumulator `totalOverLen`, and the remaining records are
still processed (the fold continues on the rest of the list). -/
theorem budget_loop_per_record (st : BudgetState) (blks : List (Bytes × Option Bytes))
    (i : Nat) (jp en : Bytes) (st1 : BudgetState)
    (hi : i < blks.length) (hget : blks.getD i ([], none) = (jp, some en))
    (hpre : budgetPhase st (blks.take i) = .ok st1) :
    (st1.newLen + ((en.length : Int) - (jp.length : Int)) ≤ 0xFFFF →
      budgetPhase st (blks.take (i + 1)) =
        .ok { st1 with newLen := st1.newLen + ((en.length : Int) - (jp.length : Int))
                       outBlocks := st1.outBlocks ++ [(jp, en)] }) ∧
    (¬ st1.newLen + ((en.length : Int) - (jp.length : Int)) ≤ 0xFFFF →
      budgetPhase st (blks.take (i + 1)) =
        .ok { st1 with halfSuccess := true
                       totalOverLen := st1.totalOverLen +
                         (st1.newLen + ((en.length : Int) - (jp.length : Int)) - 0xFFFF)
                       lostLines := st1.lostLines + 1
                       outBlocks := st1.outBlocks ++ [(jp, jp)] }) ∧
    (∀ st2, budgetPhase st (blks.take (i + 1)) = .ok st2 →
      budgetPhase st blks = budgetPhase st2 (blks.drop (i + 1))) := by
  have hsome : blks[i]? = some (jp, some en) := by
    rw [List.getElem?_eq_getElem hi, ← List.getD_eq_getElem blks ([], none) hi, hget]
  have htake : blks.take (i + 1) = blks.take i ++ [(jp, some en)] := by
    rw [List.take_succ, hsome]
    rfl
  refine ⟨fun hle => ?_, fun hgt => ?_, fun st2 h2 => ?_⟩
  · rw [htake, budgetPhase_append, hpre, except_bind_ok, budgetPhase_cons,
      budgetStep_some, if_pos hle, except_bind_ok, budgetPhase_nil]
  · rw [htake, budgetPhase_append, hpre, except_bind_ok, budgetPhase_cons,
      budgetStep_some, if_neg hgt, except_bind_ok, budgetPhase_nil]
  · conv_lhs => rw [← List.take_append_drop (i + 1) blks]
    rw [budgetPhase_append, h2, except_bind_ok]

/-- Concrete original record for the C2 witness (4 bytes). -/
def c2Jp : Bytes := [0xFD, 1, 0x41, 0x00]

/-- Concrete replacement record for the C2 witness (7 bytes, Δ = +3). -/
def c2En : Bytes := [0xFD, 4, 0x42, 0x42, 0x42, 0x42, 0x00]

/-- Budget state with starting body length 0xFFFE. -/
def c2Init : BudgetState :=
  { newLen := 0xFFFE, totalOverLen := 0, lostLines := 0, halfSuccess := false,
    outBlocks := [] }

/-- Witness for C2, the saturation scenario of the specification:
starting length 0xFFFE, one replacement growing by 3 bytes: the record is
rejected, the file is partial and the overflow accumulator is 2. -/
theorem budget_loop_per_record_witness :
    budgetPhase c2Init ([(c2Jp, some c2En)].take 1) =
      .ok { newLen := 0xFFFE, totalOverLen := 2, lostLines := 1, halfSuccess := true,
            outBlocks := [(c2Jp, c2Jp)] } :=
  (budget_loop_per_record c2Init [(c2Jp, some c2En)] 0 c2Jp c2En c2Init
    (by decide) (by decide) (by decide)).2.1 (by decide)

/-! ## Claim C3: oversize records crash the injector -/

theorem range_foldl_succ {α : Type} (f : α → Nat → α) (a : α) (n : Nat) :
    (List.range (n + 1)).foldl f a = f ((List.range n).foldl f a) n := by
  rw [List.range_succ, List.foldl_append]
  rfl

theorem wrap_fix_aux (cs : List Char) (hns : ' ' ∉ cs) (hnn : '\n' ∉ cs) :
    ∀ n, n ≤ cs.length → ∃ w, (List.range n).foldl wrapStep (cs, 0, -1) = (cs, w, -1) := by
  intro n
  induction n with
  | zero => intro _; exact ⟨0, rfl⟩
  | succ m ih =>
    intro hm
    obtain ⟨w, hw⟩ := ih (by omega)
    rw [range_foldl_succ, hw]
    have hmem : cs.getD m ' ' ∈ cs := by
      rw [List.getD_eq_getElem cs ' ' (by omega : m < cs.length)]
      exact List.getElem_mem _
    have hgd : cs.getD m ' ' = cs[m]?.getD ' ' := List.getD_eq_getElem?_getD cs m ' '
    have hc1 : ¬ cs[m]?.getD ' ' = ' ' := by
      rw [← hgd]
      exact fun he => hns (he ▸ hmem)
    have hc2 : ¬ cs[m]?.getD ' ' = '\n' := by
      rw [← hgd]
      exact fun he => hnn (he ▸ hmem)
    by_cases hw53 : 53 ≤ w + 1
    · refine ⟨0, ?_⟩
      simp [wrapStep, hc1, hc2, hw53]
    · refine ⟨w + 1, ?_⟩
      simp [wrapStep, hc1, hc2, hw53]

/-- A replacement string with no space and no newline is left unchanged
by the wrapping pass (the width counter resets at 53 but no break is ever
inserted). -/
theorem wrap_fixpoint (cs : List Char) (hns : ' ' ∉ cs) (hnn : '\n' ∉ cs) :
    processEnTextL cs = cs := by
  obtain ⟨w, hw⟩ := wrap_fix_aux cs hns hnn cs.length (Nat.le_refl _)
  unfold processEnTextL
  rw [hw]

/-- C3 (code bug): when a replacement line encodes to more than 0xFF
bytes, `injectFile` leaves that block's `enBuffer` undefined and the
whole-body budget loop then reads `enBuffer.length`, throwing an uncaught
TypeError: the injector crashes instead of skipping the record, keeping
the original bytes and processing the remaining records as the
specification requires.  No output is produced at all. -/
theorem oversize_record_crashes (encode : String → Bytes) (buffer : Bytes)
    (jp : Bytes) (jps : List Bytes) (line : String) (lines1 : List String)
    (hlen : jps.length = lines1.length)
    (hbuf : 0x14 + 2 ≤ buffer.length)
    (hover : (encode (processEnText line)).length > 0xFF) :
    injectFileCore encode buffer (jp :: jps) (line :: lines1) = .error .typeError := by
  have henc : encodeBlock encode line = none := by
    unfold encodeBlock
    rw [if_pos hover]
  have hread : readUInt16LE buffer 0x14 =
      .ok (buffer.getD 0x14 0 + 256 * buffer.getD (0x14 + 1) 0) := by
    unfold readUInt16LE
    rw [if_pos hbuf]
  unfold injectFileCore
  rw [if_neg (by simp [hlen])]
  rw [List.map_cons, List.zip_cons_cons, henc, hread, except_bind_ok,
    budgetPhase_cons, budgetStep_none, except_bind_error, except_bind_error]

/-- Concrete container for the C3 witness. -/
def c3Buf : Bytes := List.replicate 0x14 0 ++ [4, 0] ++ [0, 0] ++ [0xFD, 1, 0x41, 0x00]

/-- A translator line of 300 characters. -/
def c3Line : String := String.mk (List.replicate 300 'a')

/-- Witness for C3: a 300-character ASCII replacement line makes the
injector throw TypeError. -/
theorem oversize_record_crashes_witness :
    injectFileCore asciiEncode c3Buf [[0xFD, 1, 0x41, 0x00]] [c3Line] =
      .error .typeError := by
  have hfix : processEnTextL (List.replicate 300 'a') = List.replicate 300 'a' :=
    wrap_fixpoint _ (by rw [List.mem_replicate]; decide)
      (by rw [List.mem_replicate]; decide)
  have h1 : processEnText c3Line = c3Line := by
    show String.mk (processEnTextL (String.mk (List.replicate 300 'a')).toList) = c3Line
    rw [show (String.mk (List.replicate 300 'a')).toList = List.replicate 300 'a' from rfl]
    rw [hfix]
    rfl
  have h2 : (asciiEncode c3Line).length = 300 := by
    show ((String.mk (List.replicate 300 'a')).toList.map Char.toNat).length = 300
    rw [show (String.mk (List.replicate 300 'a')).toList = List.replicate 300 'a' from rfl]
    rw [List.length_map, List.length_replicate]
  refine oversize_record_crashes asciiEncode c3Buf [0xFD, 1, 0x41, 0x00] [] c3Line []
    rfl (by decide) ?_
  rw [h1, h2]
  decide

/-! ## Claim C4: record count mismatch -/

/-- C4 (confirmed): when the number of non-empty translator lines differs
from the number of text records the scanner finds, `injectFile` fails the
whole file (only the `fail` flag set) and returns before `writeFileSync`:
no output buffer is produced and no record is replaced. -/
theorem mismatch_fails_no_output (encode : String → Bytes) (buffer : Bytes)
    (txt : String)
    (h : (extractTextBlocks buffer).length ≠ (enLinesOf txt).length) :
    injectFile encode buffer txt =
      .ok ({ success := false, halfSuccess := false, fail := true }, none) := by
  unfold injectFile injectFileCore
  rw [if_pos (by simpa using h)]

/-- Concrete container for the C4 witness: one text record. -/
def c4Buf : Bytes := List.replicate 0x14 0 ++ [4, 0] ++ [0, 0] ++ [0xFD, 1, 0x41, 0x00]

/-- Witness for C4: one record against two translator lines fails with no
output. -/
theorem mismatch_fails_no_output_witness :
    injectFile asciiEncode c4Buf "A\nB\n" =
      .ok ({ success := false, halfSuccess := false, fail := true }, none) :=
  mismatch_fails_no_output asciiEncode c4Buf "A\nB\n" (by decide)

/-! ## Claim C5: GOTO directives -/

/-- Concrete container for the C5 evaluation: a single record `FD 01 41 00`. -/
def c5Buf : Bytes := List.replicate 0x14 0 ++ [4, 0] ++ [0, 0] ++ [0xFD, 1, 0x41, 0x00]

/-- The output the injector actually produces for the line `GOTO a001_6`:
an ordinary text record carrying the literal characters `GOTO a001_6`. -/
def c5Actual : Bytes := List.replicate 0x14 0 ++ [14, 0] ++ [0, 0] ++
  [0xFD, 11, 0x47, 0x4F, 0x54, 0x4F, 0x20, 0x61, 0x30, 0x30, 0x31, 0x5F, 0x36, 0x00]

/-- The byte group the claim (and the README) requires for `GOTO a001_6`:
`07 FD 06 61 30 30 31 5F 36 00`. -/
def c5GotoForm : Bytes := [0x07, 0xFD, 0x06, 0x61, 0x30, 0x30, 0x31, 0x5F, 0x36, 0x00]

set_option maxRecDepth 4000 in
/-- C5 (code bug): the injector has no GOTO handling at all.  Evaluating
`injectFile` on the translator line `GOTO a001_6` emits the ordinary
record `FD 0B "GOTO a001_6" 00` at the record's position — the prefix is
not stripped and no `0x07` opcode is emitted — instead of the
`07 FD 06 "a001_6" 00` byte group that the claim, the specification and
the repository's own README describe. -/
theorem goto_directive_not_implemented :
    injectFile asciiEncode c5Buf "GOTO a001_6\n" =
      .ok ({ success := true, halfSuccess := false, fail := false }, some c5Actual) ∧
    c5Actual.drop 0x18 =
      [0xFD, 11, 0x47, 0x4F, 0x54, 0x4F, 0x20, 0x61, 0x30, 0x30, 0x31, 0x5F, 0x36, 0x00] ∧
    c5Actual.drop 0x18 ≠ c5GotoForm := by
  decide

/-! ## Claim C6: the rewrite cursor -/

/-- C6 (amended): the rewrite phase replaces records in source order; for
each record it searches for the record's original byte sequence at the
first position at or after the cursor, and after a replacement the cursor
is set to the START of the matched range (`pos: startPos` in
`replaceBuffer`), not past it, so an identical byte sequence inside or at
the replaced range itself can be matched again for a later record; when a
record's original bytes are not found at or after the cursor the file is
marked failed (the thrown lookup error is caught and recorded) and the
loop continues with the remaining records, leaving buffer and cursor
unchanged for that record. -/
theorem rewrite_cursor_to_match_start (st : RewriteState) (jp en : Bytes)
    (hne : jp ≠ []) :
    (indexOfFrom st.buf jp st.basePos = none →
      rewriteStep st (jp, en) = { st with fail := true } ∧
      ∀ t, st.basePos ≤ t → matchAt st.buf jp t = false) ∧
    (∀ s, indexOfFrom st.buf jp st.basePos = some s →
      st.basePos ≤ s ∧ matchAt st.buf jp s = true ∧
      (∀ t, st.basePos ≤ t → t < s → matchAt st.buf jp t = false) ∧
      rewriteStep st (jp, en) =
        { buf := spliceAt st.buf s jp.length en, basePos := s, fail := st.fail }) ∧
    (∀ rest, rewritePhase st ((jp, en) :: rest) =
      rewritePhase (rewriteStep st (jp, en)) rest) := by
  refine ⟨fun hnone => ?_, fun s hs => ?_, fun rest => rfl⟩
  · constructor
    · unfold rewriteStep
      rw [hnone]
    · exact indexOfFrom_none st.buf jp st.basePos hne hnone
  · obtain ⟨hf1, hf2, hf3⟩ := indexOfFrom_found st.buf jp st.basePos s hs
    exact ⟨hf1, hf2, hf3, rewriteStep_ok st (jp, en) s hs⟩

/-- Concrete header for the C6 witness and counterexample. -/
def c6Hdr : Bytes := List.replicate 0x18 0

/-- A record byte group occurring twice in the C6 buffers. -/
def c6X : Bytes := [0xFD, 1, 0x41, 0x00]

/-- A distinct replacement byte group. -/
def c6Y : Bytes := [0xFD, 1, 0x42, 0x00]

/-- Witness for C6: a found match at position 0x18 is first at or after
the cursor and the step splices there, setting the cursor to 0x18. -/
theorem rewrite_cursor_to_match_start_witness :
    0x18 ≤ 0x18 ∧
    matchAt (c6Hdr ++ c6X ++ c6X) c6X 0x18 = true ∧
    (∀ t, 0x18 ≤ t → t < 0x18 → matchAt (c6Hdr ++ c6X ++ c6X) c6X t = false) ∧
    rewriteStep { buf := c6Hdr ++ c6X ++ c6X, basePos := 0x18, fail := false } (c6X, c6Y) =
      { buf := spliceAt (c6Hdr ++ c6X ++ c6X) 0x18 c6X.length c6Y, basePos := 0x18,
        fail := false } :=
  (rewrite_cursor_to_match_start
    { buf := c6Hdr ++ c6X ++ c6X, basePos := 0x18, fail := false } c6X c6Y
    (by decide)).2.1 0x18 (by decide)

set_option maxRecDepth 2000 in
/-- Counterexample to C6 as stated: two identical records `FD 01 41 00`;
the first is kept unchanged (a skipped record), the second is replaced by
`FD 01 42 00`.  Because the cursor is set to the start of the first
replaced range rather than past it, the second record's search matches
the same range again: the output is `header ++ FD 01 42 00 ++ FD 01 41
00` with the cursor still at 0x18, not the `header ++ FD 01 41 00 ++ FD
01 42 00` the claim requires. -/
theorem rewrite_cursor_counterexample :
    rewritePhase { buf := c6Hdr ++ c6X ++ c6X, basePos := 0x18, fail := false }
        [(c6X, c6X), (c6X, c6Y)] =
      { buf := c6Hdr ++ c6Y ++ c6X, basePos := 0x18, fail := false } ∧
    c6Hdr ++ c6Y ++ c6X ≠ c6Hdr ++ c6X ++ c6Y := by
  decide

/-! ## Claim C7: the header length invariant -/

theorem except_bind_eq_ok {α β : Type} {m : Except JsErr α} {f : α → Except JsErr β}
    {r : β} (h : (m >>= f) = .ok r) : ∃ a, m = .ok a ∧ f a = .ok r := by
  cases m with
  | ok a => exact ⟨a, rfl, h⟩
  | error e =>
    rw [except_bind_error] at h
    exact absurd h (by simp)

theorem getD_set_self {α : Type} (l : List α) (i : Nat) (a d : α) (h : i < l.length) :
    (l.set i a).getD i d = a := by
  rw [List.getD_eq_getElem?_getD, List.getElem?_set_self h]
  rfl

theorem getD_set_ne {α : Type} (l : List α) (i j : Nat) (a d : α) (h : i ≠ j) :
    (l.set i a).getD j d = l.getD j d := by
  rw [List.getD_eq_getElem?_getD, List.getElem?_set_ne h, ← List.getD_eq_getElem?_getD]

/-- C7 (confirmed): if the input container's little-endian u16 at offset
0x14 equals the length of its decompressed body (the bytes from 0x18 on)
then, whenever injection completes fully or partially (it returns a
written output buffer and the result is not a failure), the output's u16
at 0x14 again equals the length of the output's body, and that length is
at most 0xFFFF. -/
theorem header_length_invariant (encode : String → Bytes) (buffer : Bytes)
    (txt : String) (res : InjResult) (out : Bytes)
    (hlen : 0x18 ≤ buffer.length)
    (hhdr : readUInt16LE buffer 0x14 = .ok (buffer.length - 0x18))
    (hrun : injectFile encode buffer txt = .ok (res, some out))
    (hfail : res.fail = false) :
    readUInt16LE out 0x14 = .ok (out.length - 0x18) ∧
    out.length - 0x18 ≤ 0xFFFF ∧ 0x18 ≤ out.length := by
  unfold injectFile injectFileCore at hrun
  by_cases hmm : ((extractTextBlocks buffer).map jpRecordOf).length ≠ (enLinesOf txt).length
  · rw [if_pos hmm] at hrun
    have h2 := congrArg Prod.snd (Except.ok.inj hrun)
    exact absurd h2 (by simp)
  · rw [if_neg hmm, hhdr, except_bind_ok] at hrun
    obtain ⟨st, hbp, hrun⟩ := except_bind_eq_ok hrun
    obtain ⟨buf0, hw, hrun⟩ := except_bind_eq_ok hrun
    unfold writeUInt16LE at hw
    rw [ite_eq_iff] at hw
    rcases hw with ⟨hcond, hw⟩ | ⟨-, hw⟩
    swap
    · exact absurd hw (by simp)
    obtain ⟨hc0, hcFF, hcoff⟩ := hcond
    have hbuf0 : buf0 =
        (buffer.set 0x14 (st.newLen.toNat % 256)).set (0x14 + 1) (st.newLen.toNat / 256) :=
      (Except.ok.inj hw).symm
    unfold injectFinish at hrun
    have hpair := Except.ok.inj hrun
    have hfst := congrArg Prod.fst hpair
    have hfail2 : (rewritePhase { buf := buf0, basePos := 0x18, fail := false }
        st.outBlocks).fail = false :=
      (congrArg InjResult.fail hfst).trans hfail
    have hout : (rewritePhase { buf := buf0, basePos := 0x18, fail := false }
        st.outBlocks).buf = out :=
      Option.some.inj (congrArg Prod.snd hpair)
    obtain ⟨hb1, hb2, hb3⟩ := budgetPhase_invariants _ _ _ hbp
    have hjpne : ∀ x ∈ st.outBlocks, x.1 ≠ [] := by
      intro x hx
      rcases hb3 x hx with hmem | ⟨y, hy, hxy⟩
      · exact absurd hmem (by simp)
      · have hy1 : y.1 ∈ (extractTextBlocks buffer).map jpRecordOf :=
          (List.of_mem_zip hy).1
        rw [hxy]
        obtain ⟨blk, _, hbe⟩ := List.mem_map.mp hy1
        rw [← hbe]
        unfold jpRecordOf
        simp
    obtain ⟨hr1, hr2, hr3, -⟩ := rewritePhase_invariants st.outBlocks
      { buf := buf0, basePos := 0x18, fail := false } hfail2 hjpne
    have hlen0 : buf0.length = buffer.length := by
      rw [hbuf0]
      simp [List.length_set]
    have hinit : st.newLen = ((buffer.length - 0x18 : Nat) : Int) + diffSum st.outBlocks := by
      simp only [diffSum_nil] at hb1
      omega
    have houtlen : (out.length : Int) = 0x18 + st.newLen := by
      rw [← hout, hr1]
      show (buf0.length : Int) + diffSum st.outBlocks = 0x18 + st.newLen
      rw [hlen0]
      omega
    have houtge : 0x18 ≤ out.length := by omega
    have hgo14 : out.getD 0x14 0 = st.newLen.toNat % 256 := by
      rw [← hout, hr3 0x14 0 (by norm_num), hbuf0,
        getD_set_ne _ _ _ _ _ (by omega), getD_set_self _ _ _ _ (by omega)]
    have hgo15 : out.getD (0x14 + 1) 0 = st.newLen.toNat / 256 := by
      rw [← hout, hr3 (0x14 + 1) 0 (by norm_num), hbuf0,
        getD_set_self _ _ _ _ (by simp only [List.length_set]; omega)]
    have hread : readUInt16LE out 0x14 = .ok st.newLen.toNat := by
      unfold readUInt16LE
      rw [if_pos (by omega : 0x14 + 2 ≤ out.length), hgo14, hgo15]
      congr 1
      exact Nat.mod_add_div _ _
    have hfin : st.newLen.toNat = out.length - 0x18 := by omega
    exact ⟨by rw [hread, hfin], by omega, houtge⟩

/-- Concrete container for the C7 witness. -/
def c7Buf : Bytes := List.replicate 0x14 0 ++ [4, 0] ++ [0, 0] ++ [0xFD, 1, 0x41, 0x00]

/-- The output `injectFile` produces from `c7Buf` and the line `B`. -/
def c7Out : Bytes := List.replicate 0x14 0 ++ [4, 0] ++ [0, 0] ++ [0xFD, 1, 0x42, 0x00]

set_option maxRecDepth 4000 in
/-- Witness for C7: on a concrete one-record container the invariant
holds for the produced output. -/
theorem header_length_invariant_witness :
    readUInt16LE c7Out 0x14 = .ok (c7Out.length - 0x18) ∧
    c7Out.length - 0x18 ≤ 0xFFFF ∧ 0x18 ≤ c7Out.length :=
  header_length_invariant asciiEncode c7Buf "B\n"
    { success := true, halfSuccess := false, fail := false } c7Out
    (by decide) (by decide) (by decide) (by decide)

/-! ## Claim C9: helper lemmas for the wrapping loop -/

theorem wrapStep_newline (st : List Char × Nat × Int) (i : Nat)
    (h : st.1.getD i ' ' = '\n') : wrapStep st i = (st.1, 0, -1) := by
  simp [wrapStep, List.getD_eq_getElem?_getD] at h ⊢
  simp [h]

theorem wrapStep_plain (st : List Char × Nat × Int) (i : Nat)
    (h1 : st.1.getD i ' ' ≠ '\n') (h2 : st.1.getD i ' ' ≠ ' ')
    (h3 : st.2.1 + 1 < 53) : wrapStep st i = (st.1, st.2.1 + 1, st.2.2) := by
  simp [List.getD_eq_getElem?_getD] at h1 h2
  simp [wrapStep, h1, h2, show ¬ 53 ≤ st.2.1 + 1 from by omega]

theorem wrapStep_space (st : List Char × Nat × Int) (i : Nat)
    (h1 : st.1.getD i ' ' = ' ') (h3 : st.2.1 + 1 < 53) :
    wrapStep st i = (st.1, st.2.1 + 1, (i : Int)) := by
  simp [List.getD_eq_getElem?_getD] at h1
  simp [wrapStep, h1, show ¬ 53 ≤ st.2.1 + 1 from by omega]

theorem wrapStep_break_space (st : List Char × Nat × Int) (i : Nat)
    (h1 : st.1.getD i ' ' = ' ') (h3 : 53 ≤ st.2.1 + 1) :
    wrapStep st i = (st.1.set i '\n', 0, -1) := by
  simp [List.getD_eq_getElem?_getD] at h1
  simp [wrapStep, h1, h3]

theorem wrapStep_break_prev (st : List Char × Nat × Int) (i : Nat)
    (h1 : st.1.getD i ' ' ≠ '\n') (h2 : st.1.getD i ' ' ≠ ' ')
    (h3 : 53 ≤ st.2.1 + 1) (h4 : st.2.2 ≠ -1) :
    wrapStep st i = (st.1.set st.2.2.toNat '\n', i - st.2.2.toNat, -1) := by
  simp [List.getD_eq_getElem?_getD] at h1 h2
  simp [wrapStep, h1, h2, h3, h4]

theorem wrapStep_length (st : List Char × Nat × Int) (i : Nat) :
    (wrapStep st i).1.length = st.1.length := by
  simp only [wrapStep]
  repeat' split
  all_goals simp [List.length_set]

theorem wrapFold_length (l : List Nat) :
    ∀ st : List Char × Nat × Int, (List.foldl wrapStep st l).1.length = st.1.length := by
  induction l with
  | nil => intro st; rfl
  | cons i rest ih =>
    intro st
    rw [List.foldl_cons, ih, wrapStep_length]

theorem wrapFoldF_fst (l : List Nat) :
    ∀ (st : List Char × Nat × Int) (f : Bool),
      (List.foldl wrapStepF (st, f) l).1 = List.foldl wrapStep st l := by
  induction l with
  | nil => intro st f; rfl
  | cons i rest ih =>
    intro st f
    rw [List.foldl_cons, List.foldl_cons]
    exact ih (wrapStep st i) _

theorem wrapFoldF_flag (l : List Nat) :
    ∀ (st : List Char × Nat × Int) (f : Bool),
      (List.foldl wrapStepF (st, f) l).2 = false → f = false := by
  induction l with
  | nil => intro st f h; exact h
  | cons i rest ih =>
    intro st f h
    rw [List.foldl_cons] at h
    have h2 := ih (wrapStep st i) (f || noSpaceBreach st i) h
    exact (Bool.or_eq_false_iff.mp h2).1

theorem wrapFlag_prefix (st0 : List Char × Nat × Int) :
    ∀ (k n : Nat), (List.foldl wrapStepF (st0, false) (List.range (n + k))).2 = false →
      (List.foldl wrapStepF (st0, false) (List.range n)).2 = false := by
  intro k
  induction k with
  | zero => intro n h; exact h
  | succ m ih =>
    intro n h
    rw [show n + (m + 1) = (n + m) + 1 from by omega, range_foldl_succ] at h
    exact ih n (Bool.or_eq_false_iff.mp h).1

theorem breach_false_at (cs : List Char) (hflag : hadNoSpaceReset cs = false)
    (n : Nat) (hn : n < cs.length) :
    noSpaceBreach ((List.range n).foldl wrapStep (cs, 0, -1)) n = false := by
  unfold hadNoSpaceReset at hflag
  rw [show cs.length = (n + 1) + (cs.length - n - 1) from by omega] at hflag
  have h1 := wrapFlag_prefix (cs, 0, -1) (cs.length - n - 1) (n + 1) hflag
  rw [range_foldl_succ] at h1
  have h2 := (Bool.or_eq_false_iff.mp h1).2
  rw [wrapFoldF_fst] at h2
  exact h2

/-- The invariant of the wrapping loop after `n` iterations, when no
width-53 reset without a recorded space has happened: `lstart` is the
start of the current line (index after the last `'\n'`), the width
counter equals the current line length scanned so far and stays ≤ 52,
every completed line has length ≤ 53, and `lastSpacePos` points at a
space inside the current line when nonnegative. -/
structure WrapInv (chars : List Char) (n w : Nat) (ls : Int) (lstart : Nat) : Prop where
  hls_le : lstart ≤ n
  hn_le : n ≤ chars.length
  hw_eq : w = n - lstart
  hw_le : w ≤ 52
  hnl : lstart = 0 ∨ chars.getD (lstart - 1) ' ' = '\n'
  hcur : ∀ m, lstart ≤ m → m < n → chars.getD m ' ' ≠ '\n'
  hpre : ∀ j k, j ≤ k → k ≤ lstart →
    (∀ m, j ≤ m → m < k → chars.getD m ' ' ≠ '\n') → k - j ≤ 53
  hspc : ls = -1 ∨ (0 ≤ ls ∧ lstart ≤ ls.toNat ∧ ls.toNat < n ∧ chars.getD ls.toNat ' ' = ' ')

theorem wrapInv_break (chars : List Char) (n w : Nat) (ls : Int) (lstart s : Nat)
    (inv : WrapInv chars n w ls lstart) (hn : n < chars.length)
    (hs1 : lstart ≤ s) (hs2 : s ≤ n) (_hsp : chars.getD s ' ' = ' ')
    (hcn : chars.getD n ' ' ≠ '\n') :
    WrapInv (chars.set s '\n') (n + 1) (n - s) (-1) (s + 1) := by
  have hslen : s < chars.length := by omega
  have hweq := inv.hw_eq
  have hwle := inv.hw_le
  have hlsle := inv.hls_le
  refine ⟨by omega, by rw [List.length_set]; omega, by omega, by omega, ?_, ?_, ?_,
    Or.inl rfl⟩
  · right
    rw [show s + 1 - 1 = s from by omega]
    exact getD_set_self chars s '\n' ' ' hslen
  · intro m hm1 hm2
    rw [getD_set_ne chars s m '\n' ' ' (by omega)]
    rcases Nat.lt_or_ge m n with hmn | hmn
    · exact inv.hcur m (by omega) hmn
    · rw [show m = n from by omega]
      exact hcn
  · intro j k hjk hk hrun
    rcases Nat.eq_or_lt_of_le hjk with rfl | hjk2
    · omega
    rcases Nat.lt_or_ge k (s + 1) with hks | hks
    · have hrun2 : ∀ m, j ≤ m → m < k → chars.getD m ' ' ≠ '\n' := by
        intro m hm1 hm2
        have hx := hrun m hm1 hm2
        rwa [getD_set_ne chars s m '\n' ' ' (by omega)] at hx
      rcases Nat.lt_or_ge j lstart with hjl | hjl
      · rcases le_or_lt k lstart with hkl | hkl
        · exact inv.hpre j k hjk hkl hrun2
        · exact absurd (inv.hnl.resolve_left (by omega))
            (hrun2 (lstart - 1) (by omega) (by omega))
      · omega
    · exact absurd (getD_set_self chars s '\n' ' ' hslen)
        (hrun s (by omega) (by omega))

theorem wrapInv_newline (chars : List Char) (n w : Nat) (ls : Int) (lstart : Nat)
    (inv : WrapInv chars n w ls lstart) (hn : n < chars.length)
    (hc : chars.getD n ' ' = '\n') :
    WrapInv chars (n + 1) 0 (-1) (n + 1) := by
  have hweq := inv.hw_eq
  have hwle := inv.hw_le
  have hlsle := inv.hls_le
  refine ⟨Nat.le_refl _, by omega, by omega, by omega, ?_, ?_, ?_, Or.inl rfl⟩
  · right
    rw [show n + 1 - 1 = n from by omega]
    exact hc
  · intro m hm1 hm2
    exact absurd hm2 (by omega)
  · intro j k hjk hk hrun
    rcases Nat.eq_or_lt_of_le hjk with rfl | hjk2
    · omega
    rcases Nat.lt_or_ge k (n + 1) with hkn | hkn
    · rcases Nat.lt_or_ge j lstart with hjl | hjl
      · rcases le_or_lt k lstart with hkl | hkl
        · exact inv.hpre j k hjk hkl hrun
        · exact absurd (inv.hnl.resolve_left (by omega))
            (hrun (lstart - 1) (by omega) (by omega))
      · omega
    · exact absurd hc (hrun n (by omega) (by omega))

theorem wrapInv_plain (chars : List Char) (n w : Nat) (ls ls2 : Int) (lstart : Nat)
    (inv : WrapInv chars n w ls lstart) (hn : n < chars.length)
    (hc : chars.getD n ' ' ≠ '\n') (hw : w + 1 < 53)
    (hls2 : ls2 = -1 ∨ (0 ≤ ls2 ∧ lstart ≤ ls2.toNat ∧ ls2.toNat < n + 1 ∧
      chars.getD ls2.toNat ' ' = ' ')) :
    WrapInv chars (n + 1) (w + 1) ls2 lstart := by
  have hweq := inv.hw_eq
  have hlsle := inv.hls_le
  refine ⟨by omega, by omega, by omega, by omega, inv.hnl, ?_, inv.hpre, hls2⟩
  intro m hm1 hm2
  rcases Nat.lt_or_ge m n with hmn | hmn
  · exact inv.hcur m hm1 hmn
  · rw [show m = n from by omega]
    exact hc

theorem wrapInv_step (chars : List Char) (n w : Nat) (ls : Int) (lstart : Nat)
    (inv : WrapInv chars n w ls lstart) (hn : n < chars.length)
    (hb : noSpaceBreach (chars, w, ls) n = false) :
    ∃ l2, WrapInv (wrapStep (chars, w, ls) n).1 (n + 1)
      (wrapStep (chars, w, ls) n).2.1 (wrapStep (chars, w, ls) n).2.2 l2 := by
  by_cases hc : chars.getD n ' ' = '\n'
  · rw [wrapStep_newline (chars, w, ls) n hc]
    exact ⟨n + 1, wrapInv_newline chars n w ls lstart inv hn hc⟩
  by_cases hsp : chars.getD n ' ' = ' '
  · by_cases hw53 : 53 ≤ w + 1
    · rw [wrapStep_break_space (chars, w, ls) n hsp hw53]
      have hi := wrapInv_break chars n w ls lstart n inv hn inv.hls_le (Nat.le_refl _) hsp hc
      rw [Nat.sub_self] at hi
      exact ⟨n + 1, hi⟩
    · rw [wrapStep_space (chars, w, ls) n hsp (by show w + 1 < 53; omega)]
      refine ⟨lstart, wrapInv_plain chars n w ls (n : Int) lstart inv hn hc (by omega) ?_⟩
      right
      refine ⟨by omega, ?_, ?_, ?_⟩
      · rw [Int.toNat_ofNat]
        exact inv.hls_le
      · rw [Int.toNat_ofNat]
        omega
      · rw [Int.toNat_ofNat]
        exact hsp
  · by_cases hw53 : 53 ≤ w + 1
    · have hls : ls ≠ -1 := by
        intro hlseq
        have hc2 := hc
        have hsp2 := hsp
        rw [List.getD_eq_getElem?_getD] at hc2 hsp2
        rw [hlseq] at hb
        simp [noSpaceBreach, hc2, hsp2, hw53] at hb
      rw [wrapStep_break_prev (chars, w, ls) n hc hsp hw53 hls]
      obtain ⟨h0, hl1, hl2, hl3⟩ := inv.hspc.resolve_left hls
      exact ⟨ls.toNat + 1,
        wrapInv_break chars n w ls lstart ls.toNat inv hn hl1 (by omega) hl3 hc⟩
    · rw [wrapStep_plain (chars, w, ls) n hc hsp (by show w + 1 < 53; omega)]
      refine ⟨lstart, wrapInv_plain chars n w ls ls lstart inv hn hc (by omega) ?_⟩
      rcases inv.hspc with h | ⟨h0, h1, h2, h3⟩
      · exact Or.inl h
      · exact Or.inr ⟨h0, h1, by omega, h3⟩

theorem wrapInv_run (cs : List Char) (hflag : hadNoSpaceReset cs = false) :
    ∀ n, n ≤ cs.length →
      ∃ lstart, WrapInv ((List.range n).foldl wrapStep (cs, 0, -1)).1 n
        ((List.range n).foldl wrapStep (cs, 0, -1)).2.1
        ((List.range n).foldl wrapStep (cs, 0, -1)).2.2 lstart := by
  intro n
  induction n with
  | zero =>
    intro _
    refine ⟨0, ⟨Nat.le_refl 0, by simp, rfl, by show (0 : Nat) ≤ 52; omega, Or.inl rfl, ?_,
      ?_, Or.inl rfl⟩⟩
    · intro m hm1 hm2
      exact absurd hm2 (by omega)
    · intro j k hjk hk hrun
      omega
  | succ m ih =>
    intro hm
    obtain ⟨lstart, inv⟩ := ih (by omega)
    have hlen : ((List.range m).foldl wrapStep (cs, 0, -1)).1.length = cs.length :=
      wrapFold_length _ _
    have hb := breach_false_at cs hflag m (by omega)
    rw [range_foldl_succ]
    obtain ⟨l2, hi2⟩ := wrapInv_step ((List.range m).foldl wrapStep (cs, 0, -1)).1 m
      ((List.range m).foldl wrapStep (cs, 0, -1)).2.1
      ((List.range m).foldl wrapStep (cs, 0, -1)).2.2 lstart inv (by omega) hb
    exact ⟨l2, hi2⟩

/-- C9 (amended): if, while wrapping the replacement string, the width
counter never reaches 53 without a space having been recorded in the
current line (`hadNoSpaceReset` is false), then no line of
`processEnText s` — no run of consecutive non-`0x0A` characters —
exceeds 53 characters.  (As originally stated the claim is false: when
the counter reaches 53 with no space seen it silently resets to 0
without breaking, "forgetting" those 53 characters, so a later break can
close a line longer than 53 that still contains a space.) -/
theorem wrap_lines_bounded (s : String) (hflag : hadNoSpaceReset s.toList = false) :
    ∀ j k, j ≤ k → k ≤ (processEnText s).toList.length →
      (∀ m, m < k → j ≤ m → (processEnText s).toList.getD m ' ' ≠ '\n') →
      k - j ≤ 53 := by
  intro j k hjk hk hrun
  obtain ⟨lstart, inv⟩ := wrapInv_run s.toList hflag s.toList.length (Nat.le_refl _)
  have hout : (processEnText s).toList =
      ((List.range s.toList.length).foldl wrapStep (s.toList, 0, -1)).1 := rfl
  rw [hout] at hk hrun
  have hlenO : ((List.range s.toList.length).foldl wrapStep (s.toList, 0, -1)).1.length =
      s.toList.length := wrapFold_length _ _
  have hweq := inv.hw_eq
  have hwle := inv.hw_le
  have hlsle := inv.hls_le
  rcases Nat.eq_or_lt_of_le hjk with rfl | hjlt
  · omega
  rcases Nat.lt_or_ge j lstart with hjl | hjl
  · rcases le_or_lt k lstart with hkl | hkl
    · exact inv.hpre j k hjk hkl (fun m h1 h2 => hrun m h2 h1)
    · exact absurd (inv.hnl.resolve_left (by omega))
        (hrun (lstart - 1) (by omega) (by omega))
  · omega

/-- Witness for C9: a short line with spaces never breaches the no-space
reset, and its single output line is within the bound. -/
theorem wrap_lines_bounded_witness :
    11 - 0 ≤ 53 :=
  wrap_lines_bounded "hello world" (by decide) 0 11 (by decide) (by decide) (by decide)

/-- Concrete refuting input for C9: 106 characters, all `'a'` except
spaces at indices 60 and 65. -/
def c9Input : List Char := ((List.replicate 106 'a').set 60 ' ').set 65 ' '

/-- The refuting input as a replacement string. -/
def c9Str : String := String.mk c9Input

set_option maxRecDepth 8000 in
/-- Counterexample to C9 as stated: wrapping `c9Str` hits width 53 at
index 52 with no space yet (counter resets silently), records the spaces
at 60 and 65, and when the counter reaches 53 again at index 105 it
breaks at index 65: the first output line has 65 characters and still
contains the space at index 60, so a line longer than 53 that contains a
space exists. -/
theorem wrap_invariant_counterexample :
    ¬ (∀ l ∈ splitLines (processEnText c9Str).toList, l.length ≤ 53 ∨ ' ' ∉ l) := by
  decide
